import Mathlib

/-!
Verification of the data-reconciliation core of the budget-visualization
dashboard (field normalization, numeric coercion, record cache updates,
grouping, Top-N selection, filtering and table sorting), shallowly embedded
from the JavaScript sources.  JavaScript numbers are modelled as exact
rationals; remote document values are modelled by the JsVal type below.
-/

/-- Raw value carried by one field of a remote document: null, a string, or
a number.  Classification fields (DESC_RAMO, DESC_UR) are delivered by the
store as strings or null; monetary fields may carry any of the three. -/
inductive JsVal where
  | vNull : JsVal
  | vStr (s : String) : JsVal
  | vNum (q : ℚ) : JsVal
deriving DecidableEq

/-- Raw remote document: a list of key-value pairs with arbitrary string
keys (schema not enforced by the store). -/
abbrev RawRecord := List (String × JsVal)

/-- Whitespace test used by the key normalization (the characters removed
by the JavaScript trim on the keys occurring here). -/
def isWs (c : Char) : Bool :=
  c == ' ' || c == '\t' || c == '\n' || c == '\r'

/-- Drop whitespace from both ends of a character list; embeds the
JavaScript trim call in findField. -/
def trimChars (l : List Char) : List Char :=
  ((l.dropWhile isWs).reverse.dropWhile isWs).reverse

/-- Uppercase every character; embeds the JavaScript toUpperCase call. -/
def upChars (l : List Char) : List Char :=
  l.map Char.toUpper

/-- Key normalization of src/src/App.jsx findField: trim the key, then
uppercase it. -/
def normKey (s : String) : List Char :=
  upChars (trimChars s.data)

/-- Key normalization of the part_002 variant of findField: trim, replace
every whitespace character by an underscore, then uppercase. -/
def normKey2 (s : String) : List Char :=
  upChars ((trimChars s.data).map (fun c => if isWs c then '_' else c))

/-- Field Normalizer lookup from src/src/App.jsx: find the first key whose
trimmed, uppercased spelling equals the uppercased target, and return its
value (null, i.e. none, when no key matches). -/
def findField (target : String) (raw : RawRecord) : Option JsVal :=
  (raw.find? (fun kv => normKey kv.1 == upChars target.data)).map (·.2)

/-- Lookup of the part_002 findField variant (whitespace inside keys is
folded to underscores before comparison). -/
def findField2 (target : String) (raw : RawRecord) : Option JsVal :=
  (raw.find? (fun kv => normKey2 kv.1 == upChars target.data)).map (·.2)

/-- Plain JavaScript property access used by the part_003 snapshot mapper:
the value of the exactly-matching key, if present. -/
def lookupExact (k : String) (raw : RawRecord) : Option JsVal :=
  (raw.find? (fun kv => kv.1 == k)).map (·.2)

/-- Value of a digit string, most significant digit first. -/
def digitsToNat (l : List Char) : ℕ :=
  l.foldl (fun a c => a * 10 + (c.toNat - 48)) 0

/-- Parse an unsigned decimal numeral, optionally with a fractional part;
none models NaN.  Models the JavaScript Number() conversion on the decimal
numerals that occur in the data. -/
def parseUnsignedDec (l : List Char) : Option ℚ :=
  let intPart := l.takeWhile Char.isDigit
  let rest := l.dropWhile Char.isDigit
  match rest with
  | [] => if intPart.isEmpty then none else some (digitsToNat intPart)
  | '.' :: frac =>
      if frac.all Char.isDigit && !(intPart.isEmpty && frac.isEmpty) then
        some ((digitsToNat intPart : ℚ) + (digitsToNat frac : ℚ) / (10 : ℚ) ^ frac.length)
      else none
  | _ => none

/-- Parse an optionally signed decimal numeral; none models NaN. -/
def parseSignedDec : List Char → Option ℚ
  | '-' :: r => (parseUnsignedDec r).map (fun q => -q)
  | '+' :: r => parseUnsignedDec r
  | l => parseUnsignedDec l

/-- JavaScript Number() conversion of a string: trimmed empty input gives
0, otherwise a signed decimal parse; none models NaN. -/
def jsParseNum (s : String) : Option ℚ :=
  let t := trimChars s.data
  if t.isEmpty then some 0 else parseSignedDec t

/-- JavaScript Number() conversion of a field value; none models NaN.
Number(null) is 0; a number converts to itself; a string is parsed. -/
def toNumberJS : JsVal → Option ℚ
  | .vNull => some 0
  | .vNum q => some q
  | .vStr s => jsParseNum s

/-- The JavaScript fallback x || 0: NaN (none) and 0 are falsy and are
replaced by 0; every other number passes through. -/
def jsOrZero : Option ℚ → ℚ
  | none => 0
  | some q => q

/-- Monetary coercion of src/src/App.jsx: Number(findField(target)) || 0;
an absent field yields null, and Number(null) is 0. -/
def coerceFieldA (target : String) (raw : RawRecord) : ℚ :=
  jsOrZero (toNumberJS ((findField target raw).getD .vNull))

/-- Number() applied to a property access result: an absent property is
undefined and Number(undefined) is NaN (none). -/
def toNumberU : Option JsVal → Option ℚ
  | none => none
  | some v => toNumberJS v

/-- Monetary coercion of the part_003 snapshot mapper:
Number(d.MONTO_APROBADO) || 0, where the absent property gives NaN. -/
def coerceFieldP (k : String) (raw : RawRecord) : ℚ :=
  jsOrZero (toNumberU (lookupExact k raw))

/-- String field with default, embedding d.KEY || "default" for the
string-or-null classification fields: null and the empty string are falsy
and fall back to the default. -/
def strOrDefault (v : Option JsVal) (dflt : String) : String :=
  match v with
  | some (.vStr s) => if s = "" then dflt else s
  | _ => dflt

/-- Canonical budget record produced by the snapshot mapper. -/
structure BRecord where
  ramo : String
  ur : String
  aprobado : ℚ
  pagado : ℚ
  avance : ℚ
deriving DecidableEq

/-- Execution-rate formula shared by the whole-dataset, per-group and
per-record computations: guarded division, 0 when the approved total is
not positive. -/
def executionRate (ap pg : ℚ) : ℚ :=
  if 0 < ap then pg / ap * 100 else 0

/-- Snapshot mapper of part_003 (lines 103-115): coerce the monetary
fields, default the classification fields, precompute the per-record
advance percentage. -/
def normDoc (raw : RawRecord) : BRecord :=
  let aprobado := coerceFieldP "MONTO_APROBADO" raw
  let pagado := coerceFieldP "MONTO_PAGADO" raw
  { ramo := strOrDefault (lookupExact "DESC_RAMO" raw) "Sin clasificar"
    ur := strOrDefault (lookupExact "DESC_UR" raw) "N/A"
    aprobado := aprobado
    pagado := pagado
    avance := executionRate aprobado pagado }

/-- React state relevant to the subscription lifecycle: the record cache,
the user-visible error, and the loading flag. -/
structure AppState where
  data : List BRecord
  error : Option String
  loading : Bool
deriving DecidableEq

/-- Events delivered by the subscription: a full-collection snapshot or a
fatal error. -/
inductive SnapEvent where
  | snapOk (docs : List RawRecord) : SnapEvent
  | snapErr (msg : String) : SnapEvent

/-- Subscription callback pair of part_003 (lines 101-123): a snapshot
replaces the cache with the mapped documents; an error only records the
message and clears the loading flag, leaving the cache untouched. -/
def stepApp : SnapEvent → AppState → AppState
  | .snapOk docs, s => { data := docs.map normDoc, error := s.error, loading := false }
  | .snapErr m, s => { s with error := some ("Error de acceso: " ++ m), loading := false }

example : coerceFieldA "MONTO_APROBADO" [("monto_aprobado ", JsVal.vNum 7)] = 7 := by decide
example : coerceFieldA "MONTO_APROBADO" [("MONTO_APROBADO", JsVal.vStr "abc")] = 0 := by decide
example : coerceFieldP "MONTO_APROBADO" [] = 0 := by decide
example : jsParseNum " 12" = some 12 := by decide

/-- Whole-dataset approved total: data.reduce((acc, curr) => acc + curr.aprobado, 0). -/
def totalAprobado (l : List BRecord) : ℚ :=
  l.foldl (fun acc curr => acc + curr.aprobado) 0

/-- Whole-dataset paid total: data.reduce((acc, curr) => acc + curr.pagado, 0). -/
def totalPagado (l : List BRecord) : ℚ :=
  l.foldl (fun acc curr => acc + curr.pagado) 0

/-- Whole-dataset execution percentage (the numeric value before display
formatting): totalAprobado > 0 ? (totalPagado / totalAprobado) * 100 : 0. -/
def porcentaje (l : List BRecord) : ℚ :=
  executionRate (totalAprobado l) (totalPagado l)

/-- Aggregate group accumulated per distinct ramo. -/
structure RGroup where
  name : String
  aprobado : ℚ
  pagado : ℚ
deriving DecidableEq

/-- One step of the grouping reduce of src/src/App.jsx chartData: find the
existing group for the record's ramo and add the amounts into it, or push a
fresh group at the end. -/
def addToGroups (acc : List RGroup) (r : BRecord) : List RGroup :=
  match acc with
  | [] => [⟨r.ramo, r.aprobado, r.pagado⟩]
  | g :: t =>
      if g.name = r.ramo then
        ⟨g.name, g.aprobado + r.aprobado, g.pagado + r.pagado⟩ :: t
      else
        g :: addToGroups t r

/-- Grouping by ramo (chartData reduce in src/src/App.jsx, agrupado in
part_003): one group per distinct ramo, accumulated in first-seen order. -/
def agrupado (l : List BRecord) : List RGroup :=
  l.foldl addToGroups []

/-- Stable insertion of x into a list sorted by the total preorder le: x
goes in front of the first element it may precede, hence after every
earlier-arrived element it ties with. -/
def insertLe (le : α → α → Bool) (x : α) : List α → List α
  | [] => [x]
  | h :: t => if le x h then x :: h :: t else h :: insertLe le x t

/-- Stable sort by the total preorder le; embeds the JavaScript
Array.prototype.sort calls, whose stability ECMAScript 2019 guarantees. -/
def sortByLe (le : α → α → Bool) (l : List α) : List α :=
  l.foldr (insertLe le) []

/-- Comparator of the chart sort (a, b) => b.aprobado - a.aprobado, read
as the preorder: a may precede b when the comparator is nonpositive. -/
def groupDescLe (a b : RGroup) : Bool :=
  decide (b.aprobado ≤ a.aprobado)

/-- Number of groups kept for the charts (the slice bound 8 of
src/src/App.jsx and part_003; the part_001 iteration uses 5). -/
def topN : ℕ := 8

/-- Chart data of src/src/App.jsx: group by ramo, sort descending by
approved amount and keep the first topN groups. -/
def chartData (l : List BRecord) : List RGroup :=
  (sortByLe groupDescLe (agrupado l)).take topN

/-- Filter predicate of part_003 filteredAndSortedData: the record passes
when each of the two filters is the sentinel all or matches exactly. -/
def passes (ramoF urF : String) (d : BRecord) : Bool :=
  (ramoF == "all" || d.ramo == ramoF) && (urF == "all" || d.ur == urF)

/-- Filtered data before sorting. -/
def filterData (ramoF urF : String) (l : List BRecord) : List BRecord :=
  l.filter (passes ramoF urF)

/-- User-selectable sort keys of the explorer table. -/
inductive SortKey where
  | ramo : SortKey
  | aprobado : SortKey
  | pagado : SortKey
  | avance : SortKey
deriving DecidableEq

/-- Sort direction. -/
inductive SortDir where
  | asc : SortDir
  | desc : SortDir
deriving DecidableEq

/-- Current table sort selection. -/
structure SortConfig where
  key : SortKey
  direction : SortDir
deriving DecidableEq

/-- Strict comparison a[key] < b[key] of the table comparator; strings
compare lexicographically as in JavaScript. -/
def keyLt (k : SortKey) (a b : BRecord) : Bool :=
  match k with
  | .ramo => decide (a.ramo < b.ramo)
  | .aprobado => decide (a.aprobado < b.aprobado)
  | .pagado => decide (a.pagado < b.pagado)
  | .avance => decide (a.avance < b.avance)

/-- Preorder induced by the table comparator of part_003 (lines 142-150):
ascending keeps a before b unless b[key] < a[key]; descending flips the
comparison. -/
def rowLe (c : SortConfig) (a b : BRecord) : Bool :=
  match c.direction with
  | .asc => !(keyLt c.key b a)
  | .desc => !(keyLt c.key a b)

/-- Table sort: stable sort of the rows by the configured key and
direction. -/
def sortRows (c : SortConfig) (l : List BRecord) : List BRecord :=
  sortByLe (rowLe c) l

/-- Filter then sort, as part_003 filteredAndSortedData computes the table
rows. -/
def filteredAndSortedData (ramoF urF : String) (c : SortConfig) (l : List BRecord) : List BRecord :=
  sortRows c (filterData ramoF urF l)

/-- Sort-toggle handler requestSort of part_003 (lines 157-163): clicking
the key already sorted ascending flips to descending; any other click
sorts ascending by the clicked key. -/
def requestSort (k : SortKey) (c : SortConfig) : SortConfig :=
  if c.key = k ∧ c.direction = .asc then ⟨k, .desc⟩ else ⟨k, .asc⟩

/-- One step of accumulating the distinct keys in first-seen order. -/
def firstSeenStep (ns : List String) (x : String) : List String :=
  if x ∈ ns then ns else ns ++ [x]

/-- Distinct keys of a list, in first-seen order. -/
def firstSeenKeys (ks : List String) : List String :=
  ks.foldl firstSeenStep []

/-- Names of a group list. -/
def gnames (gs : List RGroup) : List String :=
  gs.map (·.name)

/-- Records of a list carrying the given ramo. -/
def membersOf (l : List BRecord) (n : String) : List BRecord :=
  l.filter (fun r => r.ramo == n)

/-- Sum of approved amounts. -/
def sumA (l : List BRecord) : ℚ :=
  (l.map (·.aprobado)).sum

/-- Sum of paid amounts. -/
def sumP (l : List BRecord) : ℚ :=
  (l.map (·.pagado)).sum

theorem insertLe_perm (le : α → α → Bool) (x : α) (t : List α) :
    (insertLe le x t).Perm (x :: t) := by
  induction t with
  | nil => exact List.Perm.refl _
  | cons h tl ih =>
      cases hxh : le x h with
      | true => simp [insertLe, hxh]
      | false =>
          simp only [insertLe, hxh, Bool.false_eq_true, if_false]
          exact (ih.cons h).trans (List.Perm.swap x h tl)

theorem sortByLe_perm (le : α → α → Bool) (l : List α) :
    (sortByLe le l).Perm l := by
  induction l with
  | nil => exact List.Perm.refl _
  | cons a l ih => exact (insertLe_perm le a (sortByLe le l)).trans (ih.cons a)

theorem mem_insertLe (le : α → α → Bool) (x y : α) (t : List α) :
    y ∈ insertLe le x t ↔ y = x ∨ y ∈ t := by
  rw [(insertLe_perm le x t).mem_iff, List.mem_cons]

theorem pairwise_insertLe (le : α → α → Bool)
    (htot : ∀ a b, le a b = true ∨ le b a = true)
    (htrans : ∀ a b c, le a b = true → le b c = true → le a c = true)
    (x : α) (t : List α) (h : t.Pairwise (fun a b => le a b = true)) :
    (insertLe le x t).Pairwise (fun a b => le a b = true) := by
  induction t with
  | nil => simp [insertLe]
  | cons hd tl ih =>
      rcases List.pairwise_cons.mp h with ⟨hhd, htl⟩
      cases hxh : le x hd with
      | true =>
          simp only [insertLe, hxh, if_true]
          refine List.pairwise_cons.mpr ⟨?_, h⟩
          intro y hy
          rcases List.mem_cons.mp hy with rfl | hy
          · exact hxh
          · exact htrans x hd y hxh (hhd y hy)
      | false =>
          simp only [insertLe, hxh, Bool.false_eq_true, if_false]
          refine List.pairwise_cons.mpr ⟨?_, ih htl⟩
          intro y hy
          rcases (mem_insertLe le x y tl).mp hy with hyx | hy
          · rw [hyx]
            rcases htot x hd with h1 | h2
            · rw [hxh] at h1; cases h1
            · exact h2
          · exact hhd y hy

theorem sortByLe_pairwise (le : α → α → Bool)
    (htot : ∀ a b, le a b = true ∨ le b a = true)
    (htrans : ∀ a b c, le a b = true → le b c = true → le a c = true)
    (l : List α) :
    (sortByLe le l).Pairwise (fun a b => le a b = true) := by
  induction l with
  | nil => simp [sortByLe]
  | cons a l ih => exact pairwise_insertLe le htot htrans a (sortByLe le l) ih

theorem filter_insertLe (le : α → α → Bool) (q : α → Bool)
    (hq : ∀ a b, q a = true → q b = true → le a b = true)
    (x : α) (t : List α) :
    (insertLe le x t).filter q = (x :: t).filter q := by
  induction t with
  | nil => rfl
  | cons hd tl ih =>
      cases hxh : le x hd with
      | true => simp [insertLe, hxh]
      | false =>
          simp only [insertLe, hxh, Bool.false_eq_true, if_false]
          cases hqx : q x with
          | false => simp [List.filter_cons, hqx] at ih ⊢; rw [ih]
          | true =>
              have hqhd : q hd = false := by
                cases hq2 : q hd
                · rfl
                · have := hq x hd hqx hq2
                  rw [hxh] at this; cases this
              simp [List.filter_cons, hqx, hqhd] at ih ⊢
              rw [ih]

theorem sortByLe_filter (le : α → α → Bool) (q : α → Bool)
    (hq : ∀ a b, q a = true → q b = true → le a b = true)
    (l : List α) :
    (sortByLe le l).filter q = l.filter q := by
  induction l with
  | nil => rfl
  | cons a l ih =>
      have h1 : (sortByLe le (a :: l)).filter q = (a :: sortByLe le l).filter q :=
        filter_insertLe le q hq a (sortByLe le l)
      rw [h1, List.filter_cons, List.filter_cons, ih]

/-- C7: when the subscription reports a fatal error, the cached records
are left exactly as they were (last-known-good contents preserved) and the
error message is surfaced in the user-visible error state. -/
theorem snapshotError_preserves_cache (m : String) (s : AppState) :
    (stepApp (.snapErr m) s).data = s.data ∧
    (stepApp (.snapErr m) s).error = some ("Error de acceso: " ++ m) :=
  ⟨rfl, rfl⟩

/-- C1: the execution rate is the guarded ratio: (totalPagado /
totalAprobado) * 100 when totalAprobado is positive and exactly 0 when
totalAprobado is 0 (even with nonzero payments), with the 200/150 example
evaluating to 75; the whole-dataset percentage and the per-record advance
both apply this same total function on exact rationals, so no NaN or
infinite value can arise. -/
theorem executionRate_guarded (ap pg : ℚ) :
    (0 < ap → executionRate ap pg = pg / ap * 100) ∧
    (ap = 0 → executionRate ap pg = 0) ∧
    executionRate 200 150 = 75 ∧
    (∀ l : List BRecord, porcentaje l = executionRate (totalAprobado l) (totalPagado l)) ∧
    (∀ raw : RawRecord, (normDoc raw).avance =
      executionRate (coerceFieldP "MONTO_APROBADO" raw) (coerceFieldP "MONTO_PAGADO" raw)) := by
  refine ⟨fun h => ?_, fun h => ?_, ?_, fun l => rfl, fun raw => rfl⟩
  · simp [executionRate, h]
  · simp [executionRate, h]
  · norm_num [executionRate]

theorem executionRate_guarded_witness :
    executionRate 200 150 = 150 / 200 * 100 ∧ executionRate 0 7 = 0 :=
  ⟨(executionRate_guarded 200 150).1 (by norm_num),
   (executionRate_guarded 0 7).2.1 rfl⟩

/-- C6: a record passes the part_003 filter iff the ramo filter is the
sentinel all or matches the record's ramo, and likewise for the
unidadResponsable filter; with both filters constrained the filtered data
is exactly the records matching both, and resetting the UR filter to all
restores exactly the records matching the ramo filter alone. -/
theorem filter_passes_iff (ramoF urF : String) (d : BRecord) (l : List BRecord) :
    (passes ramoF urF d = true ↔
      ((ramoF = "all" ∨ d.ramo = ramoF) ∧ (urF = "all" ∨ d.ur = urF))) ∧
    (ramoF ≠ "all" → urF ≠ "all" →
      filterData ramoF urF l = l.filter (fun r => r.ramo == ramoF && r.ur == urF)) ∧
    (ramoF ≠ "all" →
      filterData ramoF "all" l = l.filter (fun r => r.ramo == ramoF)) := by
  refine ⟨?_, fun hr hu => ?_, fun hr => ?_⟩
  · simp [passes, beq_iff_eq]
  · refine List.filter_congr (fun x hx => ?_)
    have h1 : (ramoF == "all") = false := beq_eq_false_iff_ne.mpr hr
    have h2 : (urF == "all") = false := beq_eq_false_iff_ne.mpr hu
    simp [passes, h1, h2]
  · refine List.filter_congr (fun x hx => ?_)
    have h1 : (ramoF == "all") = false := beq_eq_false_iff_ne.mpr hr
    simp [passes, h1]

theorem filter_passes_iff_witness :
    (passes "A" "X" ⟨"A", "X", 1, 1, 100⟩ = true ↔
      (("A" : String) = "all" ∨ ("A" : String) = "A") ∧
        (("X" : String) = "all" ∨ ("X" : String) = "X")) ∧
    filterData "A" "X" [⟨"A", "X", 1, 1, 100⟩] =
      List.filter (fun r => r.ramo == "A" && r.ur == "X") [⟨"A", "X", 1, 1, 100⟩] ∧
    filterData "A" "all" [⟨"A", "X", 1, 1, 100⟩] =
      List.filter (fun r => r.ramo == "A") [⟨"A", "X", 1, 1, 100⟩] :=
  ⟨(filter_passes_iff "A" "X" ⟨"A", "X", 1, 1, 100⟩ []).1,
   (filter_passes_iff "A" "X" ⟨"A", "X", 1, 1, 100⟩ [⟨"A", "X", 1, 1, 100⟩]).2.1
     (by decide) (by decide),
   (filter_passes_iff "A" "X" ⟨"A", "X", 1, 1, 100⟩ [⟨"A", "X", 1, 1, 100⟩]).2.2
     (by decide)⟩

theorem groupDescLe_total (a b : RGroup) :
    groupDescLe a b = true ∨ groupDescLe b a = true := by
  simp only [groupDescLe, decide_eq_true_eq]
  exact le_total b.aprobado a.aprobado

theorem groupDescLe_trans (a b c : RGroup) :
    groupDescLe a b = true → groupDescLe b c = true → groupDescLe a c = true := by
  simp only [groupDescLe, decide_eq_true_eq]
  exact fun h1 h2 => le_trans h2 h1

/-- C5: the chart takes exactly the first topN groups of the stable
descending sort by approved amount: the sorted list is a permutation of
the groups, descending in aprobado, ties kept in first-seen order (the
filter at any tied amount is unchanged), the slice bound topN is the
constant 8 (within 5..8), and fewer groups are returned when fewer
exist. -/
theorem chartData_topN_stable (l : List BRecord) (v : ℚ) :
    chartData l = (sortByLe groupDescLe (agrupado l)).take topN ∧
    5 ≤ topN ∧ topN ≤ 8 ∧
    (sortByLe groupDescLe (agrupado l)).Pairwise (fun a b => b.aprobado ≤ a.aprobado) ∧
    (sortByLe groupDescLe (agrupado l)).Perm (agrupado l) ∧
    (sortByLe groupDescLe (agrupado l)).filter (fun g => g.aprobado == v) =
      (agrupado l).filter (fun g => g.aprobado == v) ∧
    (chartData l).length = min topN (agrupado l).length := by
  refine ⟨rfl, by norm_num [topN], by norm_num [topN], ?_, sortByLe_perm _ _, ?_, ?_⟩
  · exact (sortByLe_pairwise groupDescLe groupDescLe_total groupDescLe_trans
      (agrupado l)).imp (fun h => of_decide_eq_true h)
  · refine sortByLe_filter groupDescLe _ (fun a b ha hb => ?_) (agrupado l)
    have ha1 : a.aprobado = v := by simpa [beq_iff_eq] using ha
    have hb1 : b.aprobado = v := by simpa [beq_iff_eq] using hb
    simp [groupDescLe, ha1, hb1]
  · rw [chartData, List.length_take, (sortByLe_perm groupDescLe (agrupado l)).length_eq]

theorem keyLt_neg_total (k : SortKey) (a b : BRecord) :
    keyLt k a b = false ∨ keyLt k b a = false := by
  cases k <;>
    simp only [keyLt, decide_eq_false_iff_not, not_lt] <;>
    exact le_total _ _

theorem keyLt_neg_trans (k : SortKey) (a b c : BRecord) :
    keyLt k b a = false → keyLt k c b = false → keyLt k c a = false := by
  cases k <;>
    simp only [keyLt, decide_eq_false_iff_not, not_lt] <;>
    exact fun h1 h2 => le_trans h1 h2

theorem rowLe_total (c : SortConfig) (a b : BRecord) :
    rowLe c a b = true ∨ rowLe c b a = true := by
  cases hd : c.direction with
  | asc =>
      simp only [rowLe, hd, Bool.not_eq_true']
      exact keyLt_neg_total c.key b a
  | desc =>
      simp only [rowLe, hd, Bool.not_eq_true']
      exact keyLt_neg_total c.key a b

theorem rowLe_trans (c : SortConfig) (a b d : BRecord) :
    rowLe c a b = true → rowLe c b d = true → rowLe c a d = true := by
  cases hd : c.direction with
  | asc =>
      simp only [rowLe, hd, Bool.not_eq_true']
      exact fun h1 h2 => keyLt_neg_trans c.key a b d h1 h2
  | desc =>
      simp only [rowLe, hd, Bool.not_eq_true']
      exact fun h1 h2 => keyLt_neg_trans c.key d b a h2 h1

/-- Two records tie on a sort key when neither compares strictly below the
other on that key. -/
def keyTies (k : SortKey) (r0 r : BRecord) : Bool :=
  !keyLt k r0 r && !keyLt k r r0

theorem keyTies_rowLe (c : SortConfig) (r0 a b : BRecord)
    (ha : keyTies c.key r0 a = true) (hb : keyTies c.key r0 b = true) :
    rowLe c a b = true := by
  simp only [keyTies, Bool.and_eq_true, Bool.not_eq_true'] at ha hb
  obtain ⟨ha1, ha2⟩ := ha
  obtain ⟨hb1, hb2⟩ := hb
  cases hd : c.direction <;> simp only [rowLe, hd, Bool.not_eq_true']
  · exact keyLt_neg_trans c.key a r0 b ha1 hb2
  · exact keyLt_neg_trans c.key b r0 a hb1 ha2

/-- C9: clicking the key currently sorted ascending flips the
configuration to descending on that key; clicking a different key resets
to ascending on it; and for every configuration the table sort is a
stable sort: the rows are permuted into order under the configured
comparator while rows tying on the sort key keep their relative order. -/
theorem requestSort_toggle_stable (k : SortKey) (c : SortConfig) (l : List BRecord) (r0 : BRecord) :
    (c.key = k → c.direction = .asc → requestSort k c = ⟨k, .desc⟩) ∧
    (c.key ≠ k → requestSort k c = ⟨k, .asc⟩) ∧
    (sortRows c l).Perm l ∧
    (sortRows c l).Pairwise (fun a b => rowLe c a b = true) ∧
    (sortRows c l).filter (keyTies c.key r0) = l.filter (keyTies c.key r0) := by
  refine ⟨fun h1 h2 => ?_, fun h => ?_, sortByLe_perm _ l,
    sortByLe_pairwise _ (rowLe_total c) (rowLe_trans c) l,
    sortByLe_filter _ _ (fun a b ha hb => keyTies_rowLe c r0 a b ha hb) l⟩
  · simp [requestSort, h1, h2]
  · simp [requestSort, h]

theorem requestSort_toggle_stable_witness :
    requestSort .pagado ⟨.pagado, .asc⟩ = ⟨.pagado, .desc⟩ ∧
    requestSort .pagado ⟨.ramo, .asc⟩ = ⟨.pagado, .asc⟩ :=
  ⟨(requestSort_toggle_stable .pagado ⟨.pagado, .asc⟩ [] ⟨"", "", 0, 0, 0⟩).1 rfl rfl,
   (requestSort_toggle_stable .pagado ⟨.ramo, .asc⟩ [] ⟨"", "", 0, 0, 0⟩).2.1 (by decide)⟩

theorem foldl_add_map (f : BRecord → ℚ) (init : ℚ) (l : List BRecord) :
    l.foldl (fun acc curr => acc + f curr) init = init + (l.map f).sum := by
  induction l generalizing init with
  | nil => simp
  | cons a l ih => simp [ih, add_assoc]

theorem sumA_addToGroups (acc : List RGroup) (r : BRecord) :
    ((addToGroups acc r).map (·.aprobado)).sum = (acc.map (·.aprobado)).sum + r.aprobado := by
  induction acc with
  | nil => simp [addToGroups]
  | cons g t ih =>
      by_cases h : g.name = r.ramo
      · simp only [addToGroups, if_pos h, List.map_cons, List.sum_cons]
        ring
      · simp only [addToGroups, if_neg h, List.map_cons, List.sum_cons, ih]
        ring

theorem sumP_addToGroups (acc : List RGroup) (r : BRecord) :
    ((addToGroups acc r).map (·.pagado)).sum = (acc.map (·.pagado)).sum + r.pagado := by
  induction acc with
  | nil => simp [addToGroups]
  | cons g t ih =>
      by_cases h : g.name = r.ramo
      · simp only [addToGroups, if_pos h, List.map_cons, List.sum_cons]
        ring
      · simp only [addToGroups, if_neg h, List.map_cons, List.sum_cons, ih]
        ring

theorem sumA_foldl_addToGroups (l : List BRecord) (acc : List RGroup) :
    ((l.foldl addToGroups acc).map (·.aprobado)).sum =
      (acc.map (·.aprobado)).sum + (l.map (·.aprobado)).sum := by
  induction l generalizing acc with
  | nil => simp
  | cons r l ih =>
      rw [List.foldl_cons, ih, sumA_addToGroups, List.map_cons, List.sum_cons]
      ring

theorem sumP_foldl_addToGroups (l : List BRecord) (acc : List RGroup) :
    ((l.foldl addToGroups acc).map (·.pagado)).sum =
      (acc.map (·.pagado)).sum + (l.map (·.pagado)).sum := by
  induction l generalizing acc with
  | nil => simp
  | cons r l ih =>
      rw [List.foldl_cons, ih, sumP_addToGroups, List.map_cons, List.sum_cons]
      ring

/-- C10: grouping by ramo conserves the totals: summing totalAprobado
over the produced groups gives exactly the whole-dataset approved total,
and likewise for totalPagado, so no record's amounts are lost or counted
twice. -/
theorem agrupado_conserves_totals (l : List BRecord) :
    ((agrupado l).map (·.aprobado)).sum = totalAprobado l ∧
    ((agrupado l).map (·.pagado)).sum = totalPagado l := by
  constructor
  · rw [agrupado, sumA_foldl_addToGroups, totalAprobado, foldl_add_map]
    simp
  · rw [agrupado, sumP_foldl_addToGroups, totalPagado, foldl_add_map]
    simp

theorem gnames_cons (g : RGroup) (t : List RGroup) :
    gnames (g :: t) = g.name :: gnames t := rfl

theorem gnames_addToGroups (acc : List RGroup) (r : BRecord) :
    gnames (addToGroups acc r) = firstSeenStep (gnames acc) r.ramo := by
  induction acc with
  | nil => simp [addToGroups, gnames, firstSeenStep]
  | cons g t ih =>
      by_cases h : g.name = r.ramo
      · have hm : r.ramo ∈ gnames (g :: t) := by
          rw [gnames_cons]
          exact List.mem_cons.mpr (Or.inl h.symm)
        rw [firstSeenStep, if_pos hm]
        have e1 : addToGroups (g :: t) r =
            ⟨g.name, g.aprobado + r.aprobado, g.pagado + r.pagado⟩ :: t := by
          simp [addToGroups, if_pos h]
        rw [e1, gnames_cons, gnames_cons]
      · have e1 : addToGroups (g :: t) r = g :: addToGroups t r := by
          simp [addToGroups, if_neg h]
        rw [e1, gnames_cons, ih, gnames_cons]
        by_cases hm : r.ramo ∈ gnames t
        · have hm2 : r.ramo ∈ g.name :: gnames t := List.mem_cons.mpr (Or.inr hm)
          rw [firstSeenStep, if_pos hm, firstSeenStep, if_pos hm2]
        · have hm2 : r.ramo ∉ g.name :: gnames t := by
            rw [List.mem_cons]
            rintro (he | he)
            · exact h he.symm
            · exact hm he
          rw [firstSeenStep, if_neg hm, firstSeenStep, if_neg hm2]
          rfl

theorem mem_firstSeenStep (ns : List String) (x y : String) :
    y ∈ firstSeenStep ns x ↔ y ∈ ns ∨ y = x := by
  rw [firstSeenStep]
  by_cases h : x ∈ ns
  · rw [if_pos h]
    constructor
    · exact Or.inl
    · rintro (hy | rfl)
      · exact hy
      · exact h
  · rw [if_neg h]
    simp

theorem mem_foldl_firstSeenStep (ks ns : List String) (y : String) :
    y ∈ ks.foldl firstSeenStep ns ↔ y ∈ ns ∨ y ∈ ks := by
  induction ks generalizing ns with
  | nil => simp
  | cons k ks ih =>
      rw [List.foldl_cons, ih, mem_firstSeenStep]
      simp [or_assoc]

theorem nodup_firstSeenStep (ns : List String) (x : String) (h : ns.Nodup) :
    (firstSeenStep ns x).Nodup := by
  rw [firstSeenStep]
  by_cases hm : x ∈ ns
  · rwa [if_pos hm]
  · rw [if_neg hm, List.nodup_append]
    refine ⟨h, List.nodup_singleton x, ?_⟩
    intro a ha hax
    rw [List.mem_singleton] at hax
    exact hm (hax ▸ ha)

theorem nodup_foldl_firstSeenStep (ks ns : List String) (h : ns.Nodup) :
    (ks.foldl firstSeenStep ns).Nodup := by
  induction ks generalizing ns with
  | nil => exact h
  | cons k ks ih => exact ih _ (nodup_firstSeenStep ns k h)

theorem nodup_firstSeenKeys (ks : List String) : (firstSeenKeys ks).Nodup :=
  nodup_foldl_firstSeenStep ks [] List.nodup_nil

theorem gnames_agrupado (l : List BRecord) :
    gnames (agrupado l) = firstSeenKeys (l.map (·.ramo)) := by
  suffices h : ∀ acc, gnames (l.foldl addToGroups acc) =
      (l.map (·.ramo)).foldl firstSeenStep (gnames acc) by
    have h2 := h []
    rw [agrupado, firstSeenKeys]
    exact h2
  induction l with
  | nil => intro acc; rfl
  | cons r l ih =>
      intro acc
      rw [List.foldl_cons, ih, List.map_cons, List.foldl_cons, gnames_addToGroups]

theorem addToGroups_notmem (acc : List RGroup) (r : BRecord) (h : r.ramo ∉ gnames acc) :
    addToGroups acc r = acc ++ [⟨r.ramo, r.aprobado, r.pagado⟩] := by
  induction acc with
  | nil => rfl
  | cons g t ih =>
      have h1 : ¬g.name = r.ramo := by
        intro he
        exact h (by rw [gnames_cons, he]; exact List.mem_cons_self _ _)
      have h2 : r.ramo ∉ gnames t := by
        intro hm
        exact h (by rw [gnames_cons]; exact List.mem_cons.mpr (Or.inr hm))
      simp [addToGroups, if_neg h1, ih h2]

theorem addToGroups_mem_spec (acc : List RGroup) (r : BRecord)
    (hnd : (gnames acc).Nodup) :
    ∀ g2 ∈ addToGroups acc r,
      (g2 ∈ acc ∧ g2.name ≠ r.ramo) ∨
      (∃ g, g ∈ acc ∧ g.name = r.ramo ∧ g2.name = r.ramo ∧
        g2.aprobado = g.aprobado + r.aprobado ∧ g2.pagado = g.pagado + r.pagado) ∨
      (r.ramo ∉ gnames acc ∧ g2 = ⟨r.ramo, r.aprobado, r.pagado⟩) := by
  induction acc with
  | nil =>
      intro g2 hg2
      rw [show addToGroups [] r = [⟨r.ramo, r.aprobado, r.pagado⟩] from rfl,
        List.mem_singleton] at hg2
      exact Or.inr (Or.inr ⟨by simp [gnames], hg2⟩)
  | cons g t ih =>
      rw [gnames_cons, List.nodup_cons] at hnd
      obtain ⟨hgt, hndt⟩ := hnd
      intro g2 hg2
      by_cases h : g.name = r.ramo
      · rw [show addToGroups (g :: t) r =
            ⟨g.name, g.aprobado + r.aprobado, g.pagado + r.pagado⟩ :: t by
              simp [addToGroups, if_pos h], List.mem_cons] at hg2
        rcases hg2 with rfl | hg2
        · exact Or.inr (Or.inl ⟨g, List.mem_cons_self g t, h, h, rfl, rfl⟩)
        · refine Or.inl ⟨List.mem_cons.mpr (Or.inr hg2), ?_⟩
          intro he
          rw [← h] at he
          exact hgt (he ▸ List.mem_map_of_mem (·.name) hg2)
      · rw [show addToGroups (g :: t) r = g :: addToGroups t r by
            simp [addToGroups, if_neg h], List.mem_cons] at hg2
        rcases hg2 with rfl | hg2
        · exact Or.inl ⟨List.mem_cons_self g2 t, h⟩
        · rcases ih hndt g2 hg2 with ⟨hm, hne⟩ | ⟨g3, hg3, he3, hn3, ha3, hp3⟩ | ⟨hnm, he⟩
          · exact Or.inl ⟨List.mem_cons.mpr (Or.inr hm), hne⟩
          · exact Or.inr (Or.inl ⟨g3, List.mem_cons.mpr (Or.inr hg3), he3, hn3, ha3, hp3⟩)
          · refine Or.inr (Or.inr ⟨?_, he⟩)
            rw [gnames_cons, List.mem_cons]
            rintro (hx | hx)
            · exact h hx.symm
            · exact hnm hx

/-- Per-group totals are the sums over the member records carrying the
group's ramo. -/
def GroupTotals (p : List BRecord) (gs : List RGroup) : Prop :=
  ∀ g ∈ gs, g.aprobado = sumA (membersOf p g.name) ∧ g.pagado = sumP (membersOf p g.name)

theorem membersOf_append_single (p : List BRecord) (r : BRecord) (n : String) :
    membersOf (p ++ [r]) n =
      membersOf p n ++ (if r.ramo = n then [r] else []) := by
  rw [membersOf, membersOf, List.filter_append]
  congr 1
  by_cases h : r.ramo = n
  · simp [List.filter_cons, h]
  · simp [List.filter_cons, h]

theorem sumA_append (a b : List BRecord) : sumA (a ++ b) = sumA a + sumA b := by
  simp [sumA]

theorem sumP_append (a b : List BRecord) : sumP (a ++ b) = sumP a + sumP b := by
  simp [sumP]

theorem groupTotals_step (p : List BRecord) (r : BRecord) (acc : List RGroup)
    (hnd : (gnames acc).Nodup)
    (hcover : ∀ x, x ∈ p.map (·.ramo) → x ∈ gnames acc)
    (ht : GroupTotals p acc) :
    GroupTotals (p ++ [r]) (addToGroups acc r) := by
  intro g2 hg2
  rcases addToGroups_mem_spec acc r hnd g2 hg2 with
    ⟨hm, hne⟩ | ⟨g, hg, heg, hn2, ha2, hp2⟩ | ⟨hnm, he⟩
  · obtain ⟨haold, hpold⟩ := ht g2 hm
    rw [membersOf_append_single, if_neg (fun he => hne he.symm), List.append_nil]
    exact ⟨haold, hpold⟩
  · obtain ⟨haold, hpold⟩ := ht g hg
    rw [membersOf_append_single, if_pos hn2.symm, sumA_append, sumP_append]
    have e1 : membersOf p g2.name = membersOf p g.name := by rw [hn2, heg]
    constructor
    · rw [e1, ← haold, ha2]
      simp [sumA]
    · rw [e1, ← hpold, hp2]
      simp [sumP]
  · subst he
    have hempty : membersOf p r.ramo = [] := by
      rw [membersOf, List.filter_eq_nil_iff]
      intro a ha hax
      rw [beq_iff_eq] at hax
      exact hnm (hcover r.ramo (hax ▸ List.mem_map_of_mem (·.ramo) ha))
    have hname : (⟨r.ramo, r.aprobado, r.pagado⟩ : RGroup).name = r.ramo := rfl
    rw [hname, membersOf_append_single, if_pos rfl, hempty, List.nil_append]
    constructor
    · simp [sumA]
    · simp [sumP]

theorem groupTotals_agrupado (l : List BRecord) : GroupTotals l (agrupado l) := by
  induction l using List.reverseRecOn with
  | nil =>
      intro g hg
      simp [agrupado] at hg
  | append_singleton p r ih =>
      rw [agrupado, List.foldl_concat]
      refine groupTotals_step p r (agrupado p) ?_ ?_ ih
      · rw [gnames_agrupado]
        exact nodup_firstSeenKeys _
      · intro x hx
        rw [gnames_agrupado, firstSeenKeys]
        exact (mem_foldl_firstSeenStep _ [] x).mpr (Or.inr hx)

/-- Example records of the grouping test: two ramo A records and one ramo
B record. -/
def exRecords : List BRecord :=
  [⟨"A", "N/A", 100, 50, 50⟩, ⟨"A", "N/A", 50, 50, 100⟩, ⟨"B", "N/A", 10, 0, 0⟩]

/-- C2: grouping by ramo yields one group per distinct ramo, named in
first-seen order of the distinct ramos, each group summing the approved
and paid amounts of its member records; on the spec's example the groups
are A with 150 approved and 100 paid and B with 10 approved and 0 paid,
and the Top-1 group by approved amount is A. -/
theorem agrupado_firstSeen_totals (l : List BRecord) :
    gnames (agrupado l) = firstSeenKeys (l.map (·.ramo)) ∧
    (gnames (agrupado l)).Nodup ∧
    (∀ g ∈ agrupado l,
        g.aprobado = sumA (membersOf l g.name) ∧ g.pagado = sumP (membersOf l g.name)) ∧
    agrupado exRecords = [⟨"A", 150, 100⟩, ⟨"B", 10, 0⟩] ∧
    (sortByLe groupDescLe (agrupado exRecords)).head?.map (·.name) = some "A" := by
  have hex : agrupado exRecords = [⟨"A", 150, 100⟩, ⟨"B", 10, 0⟩] := by
    show List.foldl addToGroups [] exRecords = _
    have hne : ¬("A" : String) = "B" := by decide
    rw [exRecords]
    norm_num [List.foldl_cons, addToGroups, hne]
  refine ⟨gnames_agrupado l, ?_, groupTotals_agrupado l, hex, ?_⟩
  · rw [gnames_agrupado]
    exact nodup_firstSeenKeys _
  · rw [hex]
    have hle : groupDescLe ⟨"A", 150, 100⟩ ⟨"B", 10, 0⟩ = true := by
      rw [groupDescLe, decide_eq_true_eq]
      norm_num
    simp [sortByLe, insertLe, hle]

theorem agrupado_firstSeen_totals_witness :
    (⟨"A", 150, 100⟩ : RGroup).aprobado = sumA (membersOf exRecords "A") ∧
    (⟨"A", 150, 100⟩ : RGroup).pagado = sumP (membersOf exRecords "A") := by
  have hmem : (⟨"A", 150, 100⟩ : RGroup) ∈ agrupado exRecords := by
    rw [(agrupado_firstSeen_totals exRecords).2.2.2.1]
    exact List.mem_cons_self _ _
  exact (agrupado_firstSeen_totals exRecords).2.2.1 ⟨"A", 150, 100⟩ hmem

/-- Character lists made only of whitespace. -/
abbrev WsOnly (l : List Char) : Prop := ∀ c ∈ l, isWs c = true

theorem dropWhile_ws_append (w l : List Char) (hw : WsOnly w) :
    (w ++ l).dropWhile isWs = l.dropWhile isWs := by
  induction w with
  | nil => rfl
  | cons c w ih =>
      rw [List.cons_append, List.dropWhile_cons, if_pos (hw c (List.mem_cons_self c w))]
      exact ih fun d hd => hw d (List.mem_cons.mpr (Or.inr hd))

theorem dropWhile_ws_all (w : List Char) (hw : WsOnly w) : w.dropWhile isWs = [] := by
  have h := dropWhile_ws_append w [] hw
  simpa using h

theorem trimChars_ws_left (w l : List Char) (hw : WsOnly w) :
    trimChars (w ++ l) = trimChars l := by
  rw [trimChars, trimChars, dropWhile_ws_append w l hw]

theorem trimChars_ws_right (l w : List Char) (hw : WsOnly w) :
    trimChars (l ++ w) = trimChars l := by
  rw [trimChars, trimChars]
  by_cases h : l.dropWhile isWs = []
  · simp [List.dropWhile_append, h, dropWhile_ws_all w hw]
  · have hne : (l.dropWhile isWs).isEmpty = false := by
      cases hdl : l.dropWhile isWs
      · exact absurd hdl h
      · rfl
    rw [List.dropWhile_append, hne]
    simp only [Bool.false_eq_true, if_false]
    rw [List.reverse_append,
      dropWhile_ws_append w.reverse _ (fun c hc => hw c (List.mem_reverse.mp hc))]

/-- Two key spellings that differ only in letter case and/or leading and
trailing whitespace: each is a whitespace-padded spelling of a trimmed
core, and the two cores agree after uppercasing. -/
def CaseOuterWsVariant (k1 k2 : String) : Prop :=
  ∃ w1 w2 w3 w4 c1 c2,
    WsOnly w1 ∧ WsOnly w2 ∧ WsOnly w3 ∧ WsOnly w4 ∧
    k1.data = w1 ++ c1 ++ w2 ∧ k2.data = w3 ++ c2 ++ w4 ∧
    trimChars c1 = c1 ∧ trimChars c2 = c2 ∧ upChars c1 = upChars c2

theorem normKey_eq_of_variant (k1 k2 : String) (h : CaseOuterWsVariant k1 k2) :
    normKey k1 = normKey k2 := by
  obtain ⟨w1, w2, w3, w4, c1, c2, hw1, hw2, hw3, hw4, he1, he2, ht1, ht2, hu⟩ := h
  rw [normKey, normKey, he1, he2]
  rw [List.append_assoc, trimChars_ws_left w1 _ hw1, trimChars_ws_right c1 w2 hw2, ht1]
  rw [List.append_assoc, trimChars_ws_left w3 _ hw3, trimChars_ws_right c2 w4 hw4, ht2]
  exact hu

/-- C3 (amended): key spellings that differ only in letter case and/or
leading and trailing whitespace normalize identically, so field lookup
returns the same value for either spelling of a key. -/
theorem findField_case_outer_ws (k1 k2 : String) (v : JsVal) (t : String)
    (rest : RawRecord) (h : CaseOuterWsVariant k1 k2) :
    normKey k1 = normKey k2 ∧
    findField t ((k1, v) :: rest) = findField t ((k2, v) :: rest) := by
  have hn := normKey_eq_of_variant k1 k2 h
  refine ⟨hn, ?_⟩
  rw [findField, findField, List.find?_cons, List.find?_cons]
  simp only [hn]
  cases hb : normKey k2 == upChars t.data <;> simp [hb]

/-- C3 (counterexample): two key spellings differing only in
underscore-versus-space resolve differently under the src/src/App.jsx
findField (the first lookup finds nothing, the second finds the value);
the part_002 variant likewise distinguishes a trailing underscore from a
trailing space. -/
theorem findField_underscore_space_counterexample :
    findField "MONTO_APROBADO" [("MONTO APROBADO", JsVal.vNum 5)] = none ∧
    findField "MONTO_APROBADO" [("MONTO_APROBADO", JsVal.vNum 5)] = some (JsVal.vNum 5) ∧
    findField2 "A" [("A ", JsVal.vNum 5)] = some (JsVal.vNum 5) ∧
    findField2 "A" [("A_", JsVal.vNum 5)] = none := by
  decide

theorem findField_case_outer_ws_witness :
    CaseOuterWsVariant " monto_aprobado " "MONTO_APROBADO" ∧
    findField "MONTO_APROBADO" [(" monto_aprobado ", JsVal.vNum 5)] =
      findField "MONTO_APROBADO" [("MONTO_APROBADO", JsVal.vNum 5)] := by
  have h : CaseOuterWsVariant " monto_aprobado " "MONTO_APROBADO" :=
    ⟨[' '], [' '], [], [], "monto_aprobado".data, "MONTO_APROBADO".data,
      by decide, by decide, by decide, by decide,
      by decide, by decide, by decide, by decide, by decide⟩
  exact ⟨h, (findField_case_outer_ws " monto_aprobado " "MONTO_APROBADO"
    (JsVal.vNum 5) "MONTO_APROBADO" [] h).2⟩

/-- C4: a monetary field that is absent, or whose value fails the numeric
parse (NaN), coerces to exactly 0, in both the findField-based mapper of
src/src/App.jsx and the property-access mapper of part_003; a successful
snapshot never touches the error state, so no error arises from such
inputs. -/
theorem coercion_defaults_zero (raw : RawRecord) (t : String)
    (docs : List RawRecord) (s : AppState) :
    (findField t raw = none → coerceFieldA t raw = 0) ∧
    (∀ v, findField t raw = some v → toNumberJS v = none → coerceFieldA t raw = 0) ∧
    (lookupExact t raw = none → coerceFieldP t raw = 0) ∧
    (∀ v, lookupExact t raw = some v → toNumberJS v = none → coerceFieldP t raw = 0) ∧
    (stepApp (.snapOk docs) s).error = s.error := by
  refine ⟨fun h => ?_, fun v hv hn => ?_, fun h => ?_, fun v hv hn => ?_, rfl⟩
  · rw [coerceFieldA, h]
    rfl
  · rw [coerceFieldA, hv]
    show jsOrZero (toNumberJS v) = 0
    rw [hn]
    rfl
  · rw [coerceFieldP, h]
    rfl
  · rw [coerceFieldP, hv]
    show jsOrZero (toNumberU (some v)) = 0
    rw [show toNumberU (some v) = toNumberJS v from rfl, hn]
    rfl

theorem coercion_defaults_zero_witness :
    coerceFieldA "MONTO_APROBADO" [("OTRO", JsVal.vNum 1)] = 0 ∧
    coerceFieldA "MONTO_PAGADO" [("MONTO_PAGADO", JsVal.vStr "n/a")] = 0 ∧
    coerceFieldP "MONTO_APROBADO" [] = 0 ∧
    coerceFieldP "MONTO_PAGADO" [("MONTO_PAGADO", JsVal.vStr "---")] = 0 :=
  ⟨(coercion_defaults_zero [("OTRO", JsVal.vNum 1)] "MONTO_APROBADO" []
      ⟨[], none, true⟩).1 (by decide),
   (coercion_defaults_zero [("MONTO_PAGADO", JsVal.vStr "n/a")] "MONTO_PAGADO" []
      ⟨[], none, true⟩).2.1 (JsVal.vStr "n/a") (by decide) (by decide),
   (coercion_defaults_zero [] "MONTO_APROBADO" [] ⟨[], none, true⟩).2.2.1 (by decide),
   (coercion_defaults_zero [("MONTO_PAGADO", JsVal.vStr "---")] "MONTO_PAGADO" []
      ⟨[], none, true⟩).2.2.2.1 (JsVal.vStr "---") (by decide) (by decide)⟩

/-- C8 (counterexample): a raw record carrying the number -5 in
MONTO_APROBADO coerces to -5, a negative amount, under both mappers, so
coerced amounts are not non-negative for every raw input record. -/
theorem coerce_negative_counterexample :
    coerceFieldA "MONTO_APROBADO" [("MONTO_APROBADO", JsVal.vNum (-5))] = -5 ∧
    coerceFieldP "MONTO_APROBADO" [("MONTO_APROBADO", JsVal.vNum (-5))] = -5 ∧
    ((-5 : ℚ) < 0) := by
  refine ⟨rfl, rfl, by norm_num⟩

/-- C8 (amended): the coerced montoAprobado and montoPagado are
non-negative whenever every field value of the raw record coerces
non-negatively, i.e. the record carries no negative numeric input; absent
and non-numeric fields still coerce to 0. -/
theorem coerce_nonneg_of_nonneg_inputs (t : String) (raw : RawRecord)
    (h : ∀ kv ∈ raw, 0 ≤ jsOrZero (toNumberJS kv.2)) :
    0 ≤ coerceFieldA t raw ∧ 0 ≤ coerceFieldP t raw := by
  constructor
  · rw [coerceFieldA]
    cases hf : findField t raw with
    | none => norm_num [jsOrZero, toNumberJS]
    | some v =>
        have hkv : ∃ kv ∈ raw, kv.2 = v := by
          rw [findField] at hf
          cases hfind : raw.find? (fun kv => normKey kv.1 == upChars t.data) with
          | none => rw [hfind] at hf; cases hf
          | some kv =>
              rw [hfind] at hf
              exact ⟨kv, List.mem_of_find?_eq_some hfind, by injection hf⟩
        obtain ⟨kv, hkvm, hkv2⟩ := hkv
        have h2 := h kv hkvm
        rw [hkv2] at h2
        simpa using h2
  · rw [coerceFieldP]
    cases hf : lookupExact t raw with
    | none => norm_num [jsOrZero, toNumberU]
    | some v =>
        have hkv : ∃ kv ∈ raw, kv.2 = v := by
          rw [lookupExact] at hf
          cases hfind : raw.find? (fun kv => kv.1 == t) with
          | none => rw [hfind] at hf; cases hf
          | some kv =>
              rw [hfind] at hf
              exact ⟨kv, List.mem_of_find?_eq_some hfind, by injection hf⟩
        obtain ⟨kv, hkvm, hkv2⟩ := hkv
        have h2 := h kv hkvm
        rw [hkv2] at h2
        simpa [toNumberU] using h2

theorem coerce_nonneg_of_nonneg_inputs_witness :
    0 ≤ coerceFieldA "MONTO_APROBADO" [("MONTO_APROBADO", JsVal.vNum 5)] ∧
    0 ≤ coerceFieldP "MONTO_APROBADO" [("MONTO_APROBADO", JsVal.vNum 5)] :=
  coerce_nonneg_of_nonneg_inputs "MONTO_APROBADO" [("MONTO_APROBADO", JsVal.vNum 5)]
    (by
      intro kv hkv
      rw [List.mem_singleton] at hkv
      subst hkv
      norm_num [jsOrZero, toNumberJS])
